import Mathlib

/-!
# The Go toolchain extension of `dem` (`extensions/go/main.go`)

A shallow embedding of the plugin (`Init`, `SetupTasks`, `Environment`,
`Paths`) together with the library functions it is built from, and the
properties of the extension contract that hold (or fail) on it.

Go strings are Lean strings; a Go pointer is an `Option`; dereferencing a
nil pointer is the outcome `panic`.  Calls into the operating system, the
network and the archive library thread an explicit world state through a
record of primitives (`Sys`).
-/

namespace Dem

/-! ## `path/filepath` on a Unix host -/

/-- Elements of a path: the maximal runs between separators, empty runs
included (`"a//b"` has the elements `a`, the empty one, and `b`). -/
def splitElems : List Char → List (List Char)
  | [] => [[]]
  | c :: cs =>
    if c = '/' then [] :: splitElems cs
    else
      match splitElems cs with
      | [] => [[c]]
      | e :: es => (c :: e) :: es

/-- Go `strings.Join(elems, "/")`. -/
def stringsJoin : List (List Char) → List Char
  | [] => []
  | [e] => e
  | e :: es => e ++ '/' :: stringsJoin es

/-- Output buffer of `filepath.Clean`, kept element-wise.  `dotdot` counts
the leading `..` elements that can no longer be removed (in Go: the index
`dotdot` below which the write position never backtracks); `names` are the
elements written after them, the most recent first. -/
structure lazybuf where
  dotdot : Nat
  names : List (List Char)
deriving DecidableEq

/-- One turn of the loop of `filepath.Clean`, on the next path element; the
four cases are those of the `switch` of the source. -/
def cleanStep (rooted : Bool) (out : lazybuf) (e : List Char) : lazybuf :=
  if e = [] then out                          -- empty path element
  else if e = ['.'] then out                  -- . element
  else if e = ['.', '.'] then                 -- .. element
    match out.names with
    | _ :: rest => ⟨out.dotdot, rest⟩         -- can backtrack
    | [] =>
      if rooted then out                      -- .. at the root is dropped
      else ⟨out.dotdot + 1, []⟩              -- cannot backtrack: keep the ..
  else ⟨out.dotdot, e :: out.names⟩           -- real path element

/-- Contents of the buffer as a path (`out.string()`, with the empty result
turned into `.`). -/
def lazybuf.string (rooted : Bool) (out : lazybuf) : List Char :=
  let body := stringsJoin (List.replicate out.dotdot ['.', '.'] ++ out.names.reverse)
  if rooted then '/' :: body
  else if body = [] then ['.'] else body

/-- Buffer of `filepath.Clean` after the whole path has been read. -/
def cleanBuf (rooted : Bool) (path : List Char) : lazybuf :=
  (splitElems path).foldl (cleanStep rooted) ⟨0, []⟩

/-- Whether a path starts at the root. -/
def isRooted : List Char → Bool
  | c :: _ => decide (c = '/')
  | [] => false

/-- Go `filepath.Clean`.  The empty path becomes `.`; otherwise the path is
read element by element (a separator ends an element, so the loop of the
source is always at the start of one), a rooted path starts the buffer with
the separator, and each element is dropped (empty, `.`), removes the last
written name (`..`, as far as one can backtrack) or is written, with a
separator before it unless it is the first. -/
def Clean (path : List Char) : List Char :=
  match path with
  | [] => ['.']
  | _ :: _ => (cleanBuf (isRooted path) path).string (isRooted path)

/-- Go `filepath.Join`: the elements from the first non-empty one on are
joined with the separator and cleaned; the result is empty when every
element is. -/
def Join (elem : List String) : String :=
  match elem.dropWhile (fun e => decide (e = "")) with
  | [] => ""
  | e :: es => ⟨Clean (stringsJoin ((e :: es).map String.data))⟩

/-! ## Data model -/

/-- Go `error` values, by their message. -/
abbrev Error := String

/-- Go `len(s)`: the number of bytes of a string. -/
def len (s : String) : Nat := s.utf8ByteSize

/-- Result of a Go call that may dereference a nil pointer. -/
inductive Outcome (α : Type) where
  | ret (a : α)
  | panic
deriving DecidableEq

/-- Modelled from the spec: `workspaceconfig.Config`, declared in
`pkg/workspaceconfig`, of which the plugin reads the raw configuration
(`Src`) and the resolved working directory (`WorkingDir`). -/
structure workspaceconfig.Config where
  Src : String
  WorkingDir : String
deriving DecidableEq

/-- Section `workspace.with.go` of the configuration. -/
structure goConfig where
  Version : String
  GoPath : String
  Go111Module : String
deriving DecidableEq

/-- Section `workspace.with`. -/
structure withConfig where
  Go : Option goConfig
deriving DecidableEq

/-- Section `workspace`. -/
structure workspaceConfig where
  With : Option withConfig
deriving DecidableEq

/-- Top level of the configuration document. -/
structure config where
  Workspace : Option workspaceConfig
deriving DecidableEq

/-- State of the extension: both fields are nil until `Init` binds them. -/
structure plugin where
  wsconf : Option workspaceconfig.Config
  goconf : Option goConfig
deriving DecidableEq

/-- Type of `yaml.Unmarshal(src, &goconf)` for `var goconf *config`: an
error, or the pointer afterwards (nil for a document without content). -/
abbrev Unmarshal := String → Except Error (Option config)

/-! ## `Init` -/

/-- Method `Init` of the plugin, called with a non-nil configuration: the
state afterwards and what the call returns (`applicable`, `err`), or
`panic`. -/
def Init (unmarshal : Unmarshal) (v : plugin) (wsconf : workspaceconfig.Config) :
    plugin × Outcome (Bool × Option Error) :=
  match unmarshal wsconf.Src with
  | .error err => (v, .ret (false, some err))
  | .ok none => (v, .ret (false, none))                       -- goconf == nil
  | .ok (some goconf) =>
    -- goconf.Workspace.With.Go: reads through Workspace, then through With
    match goconf.Workspace with
    | none => (v, .panic)
    | some workspace =>
      match workspace.With with
      | none => (v, .panic)
      | some withc =>
        match withc.Go with
        | none => (v, .ret (false, none))                     -- Go == nil
        | some go =>
          if len go.Version = 0 then (v, .ret (false, none))
          else (⟨some wsconf, some go⟩, .ret (true, none))

/-! ## Setup tasks -/

/-- Modelled from the spec: `ext.ProgressBar`, the progress-report handle
handed to every procedure (package `ext` declares it outside the sources
at hand); the procedures of this plugin never use it. -/
structure ext.ProgressBar where
  steps : Nat
deriving DecidableEq

/-- Modelled from the spec: `ext.Procedure`, a named unit of work whose
action takes a progress-report handle and may fail. -/
structure ext.Procedure (σ : Type) where
  name : String
  action : ext.ProgressBar → σ → σ × Option Error

/-- Modelled from the spec: `ext.SetupTasks`, an ordered sequence of
procedures; Go nil is the empty sequence. -/
abbrev ext.SetupTasks (σ : Type) := List (ext.Procedure σ)

/-- An HTTP response as far as the plugin can see it. -/
structure Response where
  StatusCode : Nat
  Body : String
deriving DecidableEq

/-- The calls the plugin makes outside itself, over a world state `σ`.
`Exists` and `Mkdir` are the helpers of `pkg/util/fs` (`Mkdir` reports a
failure to create the directory); `Create`, `FileClose` are `os.Create` and
`(*os.File).Close`, with a file handle given by its name; `Get`, `BodyClose`
are `http.Get` and `rsp.Body.Close`; `Copy` is `io.Copy(out, rsp.Body)`;
`Unarchive` is `archiver.NewTarGz().Unarchive(source, destination)`. -/
structure Sys (σ : Type) where
  Exists : String → σ → Bool
  Mkdir : String → σ → σ × Option Error
  Create : String → σ → σ × Except Error String
  FileClose : String → σ → σ
  Get : String → σ → σ × Except Error Response
  BodyClose : Response → σ → σ
  Copy : String → Response → σ → σ × Except Error Nat
  Unarchive : String → String → σ → σ × Option Error

/-- Values fixed per process: the variable `goBinaryHost` and the constants
`runtime.GOOS`, `runtime.GOARCH`. -/
structure Runtime where
  goBinaryHost : String
  GOOS : String
  GOARCH : String
deriving DecidableEq

/-- Variable `path` of `SetupTasks`. -/
def SetupTasks.path (wsconf : workspaceconfig.Config) (goconf : goConfig) : String :=
  Join [wsconf.WorkingDir, ".go", goconf.Version]

/-- Variable `bin` of `SetupTasks`. -/
def SetupTasks.bin (wsconf : workspaceconfig.Config) (goconf : goConfig) : String :=
  Join [SetupTasks.path wsconf goconf, "go", "bin", "go"]

/-- Variable `tar` of `SetupTasks`: `fmt.Sprintf("go%s.%s-%s.tar.gz", ...)`. -/
def SetupTasks.tar (rt : Runtime) (goconf : goConfig) : String :=
  "go" ++ goconf.Version ++ "." ++ rt.GOOS ++ "-" ++ rt.GOARCH ++ ".tar.gz"

/-- Variable `url` of `SetupTasks`: `fmt.Sprintf("%s/%s", goBinaryHost, tar)`. -/
def SetupTasks.url (rt : Runtime) (goconf : goConfig) : String :=
  rt.goBinaryHost ++ "/" ++ SetupTasks.tar rt goconf

/-- Variable `tmp` of `SetupTasks`. -/
def SetupTasks.tmp (wsconf : workspaceconfig.Config) : String :=
  Join [wsconf.WorkingDir, ".go", "release"]

/-- Variable `file` of `SetupTasks`. -/
def SetupTasks.file (rt : Runtime) (wsconf : workspaceconfig.Config) (goconf : goConfig) :
    String :=
  Join [SetupTasks.tmp wsconf, SetupTasks.tar rt goconf]

/-- Body of the procedure "initializing": both results of `fs.Mkdir` are
dropped and the procedure returns nil. -/
def initializing {σ : Type} (sys : Sys σ) (path tmp : String) (_bar : ext.ProgressBar)
    (w : σ) : σ × Option Error :=
  let w1 := (sys.Mkdir path w).1
  let w2 := (sys.Mkdir tmp w1).1
  (w2, none)

/-- Body of the procedure "downloading".  The deferred `rsp.Body.Close()`
and `out.Close()` run, in this order, on every return after they were
registered. -/
def downloading {σ : Type} (sys : Sys σ) (file url : String) (_bar : ext.ProgressBar)
    (w : σ) : σ × Option Error :=
  match sys.Create file w with
  | (w1, .error err) => (w1, some err)
  | (w1, .ok out) =>
    match sys.Get url w1 with
    | (w2, .error err) => (sys.FileClose out w2, some err)
    | (w2, .ok rsp) =>
      match sys.Copy out rsp w2 with
      | (w3, .error err) => (sys.FileClose out (sys.BodyClose rsp w3), some err)
      | (w3, .ok _) => (sys.FileClose out (sys.BodyClose rsp w3), none)

/-- Body of the procedure "unpacking". -/
def unpacking {σ : Type} (sys : Sys σ) (file path : String) (_bar : ext.ProgressBar)
    (w : σ) : σ × Option Error :=
  match sys.Unarchive file path w with
  | (w1, some err) => (w1, some err)
  | (w1, none) => (w1, none)

/-- Method `SetupTasks` of the plugin, called in world `w`. -/
def SetupTasks {σ : Type} (sys : Sys σ) (rt : Runtime) (v : plugin) (w : σ) :
    Outcome (ext.SetupTasks σ) :=
  match v.wsconf, v.goconf with
  | some wsconf, some goconf =>
    if sys.Exists (SetupTasks.bin wsconf goconf) w then .ret []
    else .ret [
      ⟨"initializing", initializing sys (SetupTasks.path wsconf goconf) (SetupTasks.tmp wsconf)⟩,
      ⟨"downloading", downloading sys (SetupTasks.file rt wsconf goconf) (SetupTasks.url rt goconf)⟩,
      ⟨"unpacking", unpacking sys (SetupTasks.file rt wsconf goconf) (SetupTasks.path wsconf goconf)⟩]
  | _, _ => .panic

/-- Modelled from the spec: the pipeline engine (section 4.2; it belongs to
the orchestrator, outside the sources at hand).  Procedures run in the
listed order and the run stops at the first one that fails.  Returned are
the world afterwards, the names of the procedures that ran, and the error
of the failing one. -/
def runPipeline {σ : Type} (bar : ext.ProgressBar) :
    ext.SetupTasks σ → σ → σ × List String × Option Error
  | [], w => (w, [], none)
  | p :: ps, w =>
    match p.action bar w with
    | (w1, some err) => (w1, [p.name], some err)
    | (w1, none) =>
      let r := runPipeline bar ps w1
      (r.1, p.name :: r.2.1, r.2.2)

/-! ## Environment, aliases, paths -/

/-- Modelled from the spec: the composer of `pkg/util/envcomposer`, an
ordered mapping from variable names to values with unique keys. -/
structure envcomposer.Composer where
  vars : List (String × String)
deriving DecidableEq

/-- Modelled from the spec: `envcomposer.New()`, the composer without
variables. -/
def envcomposer.New : envcomposer.Composer := ⟨[]⟩

/-- Modelled from the spec: the step behind `Set`, which replaces the value
of `key` where it stands or adds the pair at the end, so keys stay unique. -/
def envcomposer.setVar (key value : String) : List (String × String) → List (String × String)
  | [] => [(key, value)]
  | (k, x) :: rest =>
    if k = key then (key, value) :: rest else (k, x) :: envcomposer.setVar key value rest

/-- Modelled from the spec: `Set(key, value)` overwrites any prior value
of `key` (last write wins). -/
def envcomposer.Composer.Set (c : envcomposer.Composer) (key value : String) :
    envcomposer.Composer :=
  ⟨envcomposer.setVar key value c.vars⟩

/-- Modelled from the spec: `AsMap()`, the variables as a plain mapping
(a Go map, given by its entries). -/
def envcomposer.Composer.AsMap (c : envcomposer.Composer) : List (String × String) :=
  c.vars

/-- Method `Environment` of the plugin. -/
def Environment (v : plugin) : Outcome (List (String × String)) :=
  match v.goconf with
  | none => .panic
  | some goconf =>
    let composer := envcomposer.New
    let composer :=
      if len goconf.GoPath > 0 ∧ goconf.GoPath ≠ "false" then
        composer.Set "GOPATH" goconf.GoPath
      else composer
    let composer :=
      if len goconf.Go111Module > 0 then composer.Set "GO111MODULE" goconf.Go111Module
      else composer
    .ret composer.AsMap

/-- Method `Aliases` of the plugin: nil. -/
def Aliases (_v : plugin) : List (String × String) := []

/-- Method `Paths` of the plugin. -/
def Paths (v : plugin) : Outcome (List String) :=
  match v.wsconf, v.goconf with
  | some wsconf, some goconf =>
    .ret [Join [wsconf.WorkingDir, ".go", goconf.Version, "go", "bin"]]
  | _, _ => .panic

/-! ## Predicates used in the proofs -/

/-- A real path element: not empty, not `.`, not `..`, without separator. -/
def plainElem (e : List Char) : Prop :=
  e ≠ [] ∧ e ≠ ['.'] ∧ e ≠ ['.', '.'] ∧ '/' ∉ e

/-- Buffers that `filepath.Clean` can produce: a rooted path keeps no `..`,
and every written name is a real path element. -/
def lazybuf.valid (rooted : Bool) (out : lazybuf) : Prop :=
  (rooted = true → out.dotdot = 0) ∧ ∀ e ∈ out.names, plainElem e

/-! ## A reference world

A small in-memory file tree with a remote server, and the decoding of a
few fixed documents: the general statements below are instantiated on
them. -/

/-- File tree (regular files with their contents, directories), whether it
may be modified, and what the server answers to a GET. -/
structure World where
  files : List (String × String)
  dirs : List String
  writable : Bool
  remote : String → Except Error Response

/-- Create or truncate-and-write a regular file. -/
def World.write (w : World) (name content : String) : World :=
  ⟨(name, content) :: w.files.filter (fun f => decide (f.1 ≠ name)), w.dirs, w.writable,
    w.remote⟩

/-- Records of an archive of the reference world, separated by `;`: the
header `tgz`, then file names.  The record `!` stands for damaged data. -/
def records : List Char → List (List Char)
  | [] => [[]]
  | c :: cs =>
    if c = ';' then [] :: records cs
    else
      match records cs with
      | [] => [[c]]
      | r :: rs => (c :: r) :: rs

/-- Extraction record by record into `dest`; it stops with an error at the
first damaged record, keeping what was written before. -/
def extract (dest : String) : List (List Char) → World → World × Option Error
  | [], w => (w, none)
  | r :: rs, w =>
    if r = ['!'] then (w, some "unexpected EOF")
    else extract dest rs (w.write (Join [dest, ⟨r⟩]) "")

/-- Primitives of the reference world. -/
def simSys : Sys World where
  Exists name w := decide (name ∈ w.dirs) || (w.files.lookup name).isSome
  Mkdir name w :=
    if w.writable then (⟨w.files, name :: w.dirs, w.writable, w.remote⟩, none)
    else (w, some "mkdir: permission denied")
  Create name w :=
    if w.writable then (w.write name "", .ok name) else (w, .error "open: permission denied")
  FileClose _ w := w
  Get url w := (w, w.remote url)
  BodyClose _ w := w
  Copy out rsp w := (w.write out rsp.Body, .ok (len rsp.Body))
  Unarchive source dest w :=
    match w.files.lookup source with
    | none => (w, some "open: no such file")
    | some content =>
      match records content.data with
      | ['t', 'g', 'z'] :: rs => extract dest rs w
      | _ => (w, some "gzip: invalid header")

/-- An empty file tree in front of a server that answers every GET with
`rsp`. -/
def emptyWorld (writable : Bool) (rsp : Response) : World :=
  ⟨[], [], writable, fun _ => .ok rsp⟩

/-- Process values of the examples. -/
def sampleRuntime : Runtime := ⟨"https://dl.google.com/go", "linux", "amd64"⟩

/-- Progress handle of the examples. -/
def sampleBar : ext.ProgressBar := ⟨3⟩

/-- Configuration of the comment at the head of `main.go`. -/
def docGo : String :=
  "workspace:\n  shell:\n    program: /bin/zsh\n  with:\n    go:\n      version: 1.11.2\n      go_path: false\n      go_111_module: auto\n"

/-- A `go` section without `version`. -/
def docGoNoVersion : String := "workspace:\n  with:\n    go:\n      go_path: /home/dev/go\n"

/-- A `go` section whose version is the word `release`. -/
def docGoRelease : String := "workspace:\n  with:\n    go:\n      version: release\n"

/-- A `with` section for another toolchain only. -/
def docNoGo : String := "workspace:\n  with:\n    python:\n      version: 3.7.1\n"

/-- A `workspace` section without `with`. -/
def docNoWith : String := "workspace:\n  shell:\n    program: /bin/zsh\n"

/-- A document without `workspace`. -/
def docNoWorkspace : String := "name: demo\n"

/-- A document that is not valid YAML. -/
def docMalformed : String := "workspace: [\n"

/-- A valid document with the section `workspace.with.go` whose `version`
is a sequence and not a scalar. -/
def docGoVersionList : String := "workspace:\n  with:\n    go:\n      version: [1, 11]\n"

/-- Error of `yaml.Unmarshal` on `docGoVersionList`: the field `Version` is
a Go string and a sequence does not decode into it. -/
def versionTypeError : Error :=
  "yaml: unmarshal errors:\n  line 4: cannot unmarshal !!seq into string"

/-- What `yaml.Unmarshal` leaves in `goconf` for the documents above (a
mapping without a key leaves the field of that key nil; the empty
document leaves `goconf` itself nil; a value that does not fit the type of
its field is an error). -/
def sampleUnmarshal : Unmarshal := fun src =>
  if src = "" then .ok none
  else if src = docNoWorkspace then .ok (some ⟨none⟩)
  else if src = docNoWith then .ok (some ⟨some ⟨none⟩⟩)
  else if src = docNoGo then .ok (some ⟨some ⟨some ⟨none⟩⟩⟩)
  else if src = docGoNoVersion then .ok (some ⟨some ⟨some ⟨some ⟨"", "/home/dev/go", ""⟩⟩⟩⟩)
  else if src = docGo then .ok (some ⟨some ⟨some ⟨some ⟨"1.11.2", "false", "auto"⟩⟩⟩⟩)
  else if src = docGoRelease then .ok (some ⟨some ⟨some ⟨some ⟨"release", "", ""⟩⟩⟩⟩)
  else if src = docGoVersionList then .error versionTypeError
  else .error "yaml: did not find expected node content"

/-- Workspace of the examples: the configuration of `docGo` in `/w`. -/
def sampleWs : workspaceconfig.Config := ⟨docGo, "/w"⟩

/-- Toolchain section of `docGo`. -/
def sampleGo : goConfig := ⟨"1.11.2", "false", "auto"⟩

/-- A world in which the downloaded file is no archive at all. -/
def damagedEarly : World :=
  (emptyWorld true ⟨200, "!"⟩).write (SetupTasks.file sampleRuntime sampleWs sampleGo) "!"

/-- Names of the procedures of a pipeline (a panic has none). -/
def taskNames {σ : Type} : Outcome (ext.SetupTasks σ) → List String
  | .ret tasks => tasks.map (fun p => p.name)
  | .panic => []

/-- The pipeline of `SetupTasks`, run to its end in the same world. -/
def setupAndRun {σ : Type} (sys : Sys σ) (rt : Runtime) (bar : ext.ProgressBar) (v : plugin)
    (w : σ) : σ × List String × Option Error :=
  match SetupTasks sys rt v w with
  | .ret tasks => runPipeline bar tasks w
  | .panic => (w, [], some "panic")

/-! ## Paths: splitting, joining, cleaning -/

theorem splitElems_ne_nil (p : List Char) : splitElems p ≠ [] := by
  induction p with
  | nil => simp [splitElems]
  | cons c cs ih =>
    unfold splitElems
    split
    · simp
    · split
      · simp
      · simp

theorem splitElems_append_sep (a b : List Char) :
    splitElems (a ++ '/' :: b) = splitElems a ++ splitElems b := by
  induction a with
  | nil => simp [splitElems]
  | cons c cs ih =>
    by_cases hc : c = '/'
    · simp [splitElems, hc, ih]
    · simp only [List.cons_append, splitElems, hc, if_false, List.append_eq]
      rw [ih]
      cases h : splitElems cs with
      | nil => exact absurd h (splitElems_ne_nil cs)
      | cons e es => simp

theorem splitElems_of_noSep (e : List Char) (h : '/' ∉ e) : splitElems e = [e] := by
  induction e with
  | nil => rfl
  | cons c cs ih =>
    have hc : c ≠ '/' := fun hc => h (by simp [hc])
    have hcs : '/' ∉ cs := fun hcs => h (by simp [hcs])
    simp [splitElems, hc, ih hcs]

theorem stringsJoin_cons_cons (e f : List Char) (l : List (List Char)) :
    stringsJoin (e :: f :: l) = e ++ '/' :: stringsJoin (f :: l) := rfl

theorem stringsJoin_append (l1 l2 : List (List Char)) (h1 : l1 ≠ []) (h2 : l2 ≠ []) :
    stringsJoin (l1 ++ l2) = stringsJoin l1 ++ '/' :: stringsJoin l2 := by
  induction l1 with
  | nil => exact absurd rfl h1
  | cons e l ih =>
    cases l with
    | nil =>
      cases l2 with
      | nil => exact absurd rfl h2
      | cons f l2 => simp [stringsJoin]
    | cons f l =>
      have := ih (by simp)
      simp only [List.cons_append] at this ⊢
      rw [stringsJoin_cons_cons, this, stringsJoin_cons_cons]
      simp

theorem splitElems_stringsJoin (l : List (List Char)) (hl : l ≠ [])
    (h : ∀ e ∈ l, '/' ∉ e) : splitElems (stringsJoin l) = l := by
  induction l with
  | nil => exact absurd rfl hl
  | cons e l ih =>
    cases l with
    | nil => simpa [stringsJoin] using splitElems_of_noSep e (h e (by simp))
    | cons f l =>
      rw [stringsJoin_cons_cons, splitElems_append_sep,
        splitElems_of_noSep e (h e (by simp)), ih (by simp) (fun x hx => h x (by simp [hx]))]
      rfl

theorem splitElems_noSep (p : List Char) : ∀ e ∈ splitElems p, '/' ∉ e := by
  induction p with
  | nil => simp [splitElems]
  | cons c cs ih =>
    by_cases hc : c = '/'
    · intro e he
      simp only [splitElems, hc, if_true, List.mem_cons] at he
      rcases he with rfl | he
      · simp
      · exact ih e he
    · intro e he
      simp only [splitElems, hc, if_false] at he
      cases h : splitElems cs with
      | nil => exact absurd h (splitElems_ne_nil cs)
      | cons f fs =>
        rw [h] at he ih
        simp only [List.mem_cons] at he
        rcases he with rfl | he
        · have hf := ih f (by simp)
          intro hmem
          simp only [List.mem_cons] at hmem
          rcases hmem with hmem | hmem
          · exact hc hmem.symm
          · exact hf hmem
        · exact ih e (by simp [he])

theorem cleanStep_plain (rooted : Bool) (out : lazybuf) (e : List Char) (h : plainElem e) :
    cleanStep rooted out e = ⟨out.dotdot, e :: out.names⟩ := by
  obtain ⟨h1, h2, h3, _⟩ := h
  simp [cleanStep, h1, h2, h3]

theorem cleanStep_valid (rooted : Bool) (out : lazybuf) (e : List Char) (he : '/' ∉ e)
    (h : out.valid rooted) : (cleanStep rooted out e).valid rooted := by
  obtain ⟨hd, hn⟩ := h
  unfold cleanStep
  split
  · exact ⟨hd, hn⟩
  · split
    · exact ⟨hd, hn⟩
    · split
      · split
        · rename_i x rest hnames
          refine ⟨hd, fun f hf => hn f ?_⟩
          rw [hnames]; simp [hf]
        · split
          · exact ⟨hd, hn⟩
          · rename_i hr
            refine ⟨fun h => absurd h hr, by simp⟩
      · rename_i h1 h2 h3
        refine ⟨hd, fun f hf => ?_⟩
        simp only [List.mem_cons] at hf
        rcases hf with rfl | hf
        · exact ⟨h1, h2, h3, he⟩
        · exact hn f hf

theorem foldl_cleanStep_valid (rooted : Bool) (l : List (List Char)) :
    ∀ out : lazybuf, (∀ e ∈ l, '/' ∉ e) → out.valid rooted →
      (l.foldl (cleanStep rooted) out).valid rooted := by
  induction l with
  | nil => intro out _ h; exact h
  | cons e l ih =>
    intro out hl h
    simp only [List.foldl_cons]
    exact ih _ (fun f hf => hl f (by simp [hf]))
      (cleanStep_valid rooted out e (hl e (by simp)) h)

theorem cleanBuf_valid (rooted : Bool) (p : List Char) : (cleanBuf rooted p).valid rooted :=
  foldl_cleanStep_valid rooted _ _ (splitElems_noSep p) ⟨fun _ => rfl, by simp⟩

theorem foldl_cleanStep_dotdot (n : Nat) :
    ∀ k : Nat, (List.replicate n ['.', '.']).foldl (cleanStep false) ⟨k, []⟩ = ⟨k + n, []⟩ := by
  induction n with
  | zero => intro k; rfl
  | succ n ih =>
    intro k
    simp only [List.replicate_succ, List.foldl_cons]
    have : cleanStep false ⟨k, []⟩ ['.', '.'] = ⟨k + 1, []⟩ := by simp [cleanStep]
    rw [this, ih]
    congr 1
    omega

theorem foldl_cleanStep_plain (rooted : Bool) (l : List (List Char)) :
    ∀ out : lazybuf, (∀ e ∈ l, plainElem e) →
      l.foldl (cleanStep rooted) out = ⟨out.dotdot, l.reverse ++ out.names⟩ := by
  induction l with
  | nil => intro out _; rfl
  | cons e l ih =>
    intro out hl
    simp only [List.foldl_cons]
    rw [cleanStep_plain rooted out e (hl e (by simp)), ih _ (fun f hf => hl f (by simp [hf]))]
    simp

theorem stringsJoin_eq_nil (l : List (List Char)) (h : ∀ e ∈ l, e ≠ [])
    (hj : stringsJoin l = []) : l = [] := by
  cases l with
  | nil => rfl
  | cons e l =>
    cases l with
    | nil => exact absurd hj (by simpa [stringsJoin] using h e (by simp))
    | cons f l => simp [stringsJoin] at hj

theorem isRooted_stringsJoin (e : List Char) (l : List (List Char)) (he : e ≠ [])
    (hs : '/' ∉ e) : isRooted (stringsJoin (e :: l)) = false := by
  cases e with
  | nil => exact absurd rfl he
  | cons c cs =>
    have hc : c ≠ '/' := fun hc => hs (by simp [hc])
    cases l with
    | nil => simp [stringsJoin, isRooted, hc]
    | cons f l => simp [stringsJoin, isRooted, hc]

theorem plainElem_dotdot_noSep : '/' ∉ ['.', '.'] := by decide

theorem bufElems_props (rooted : Bool) (out : lazybuf) (h : out.valid rooted) :
    ∀ e ∈ List.replicate out.dotdot ['.', '.'] ++ out.names.reverse, e ≠ [] ∧ '/' ∉ e := by
  intro e he
  simp only [List.mem_append, List.mem_replicate, List.mem_reverse] at he
  rcases he with ⟨_, rfl⟩ | he
  · exact ⟨by simp, plainElem_dotdot_noSep⟩
  · exact ⟨(h.2 e he).1, (h.2 e he).2.2.2⟩

theorem cleanBuf_string (rooted : Bool) (out : lazybuf) (h : out.valid rooted) :
    cleanBuf rooted (out.string rooted) = out := by
  have hp := bufElems_props rooted out h
  obtain ⟨d, names⟩ := out
  cases rooted with
  | true =>
    have hd : d = 0 := h.1 rfl
    subst hd
    simp only [lazybuf.string, List.replicate_zero, List.nil_append, if_true, cleanBuf,
      splitElems, List.foldl_cons]
    have h0 : cleanStep true ⟨0, []⟩ [] = ⟨0, []⟩ := by simp [cleanStep]
    rw [h0]
    by_cases hn : names.reverse = []
    · rw [hn]
      have : names = [] := by simpa using hn
      subst this
      simp [stringsJoin, splitElems, cleanStep]
    · rw [splitElems_stringsJoin _ hn (fun e he => (hp e (by simp [he])).2),
        foldl_cleanStep_plain true _ _ (fun e he => h.2 e (by simpa using he))]
      simp
  | false =>
    by_cases hb : stringsJoin (List.replicate d ['.', '.'] ++ names.reverse) = []
    · have hl := stringsJoin_eq_nil _ (fun e he => (hp e he).1) hb
      simp only [List.append_eq_nil, List.replicate_eq_nil_iff, List.reverse_eq_nil_iff] at hl
      obtain ⟨rfl, rfl⟩ := hl
      simp [lazybuf.string, stringsJoin, cleanBuf, splitElems, cleanStep]
    · have hl : List.replicate d ['.', '.'] ++ names.reverse ≠ [] := by
        intro hl; rw [hl] at hb; exact hb rfl
      simp only [lazybuf.string, hb, if_false, cleanBuf, Bool.false_eq_true]
      rw [splitElems_stringsJoin _ hl (fun e he => (hp e he).2), List.foldl_append,
        foldl_cleanStep_dotdot,
        foldl_cleanStep_plain false _ _ (fun e he => h.2 e (by simpa using he))]
      simp

theorem isRooted_string (rooted : Bool) (out : lazybuf) (h : out.valid rooted) :
    isRooted (out.string rooted) = rooted := by
  have hp := bufElems_props rooted out h
  cases rooted with
  | true => simp [lazybuf.string, isRooted]
  | false =>
    by_cases hb : stringsJoin (List.replicate out.dotdot ['.', '.'] ++ out.names.reverse) = []
    · simp [lazybuf.string, hb, isRooted]
    · simp only [lazybuf.string, hb, if_false, Bool.false_eq_true]
      cases hl : List.replicate out.dotdot ['.', '.'] ++ out.names.reverse with
      | nil => rw [hl] at hb; exact absurd rfl hb
      | cons e l =>
        rw [hl] at hp
        exact isRooted_stringsJoin e l (hp e (by simp)).1 (hp e (by simp)).2

theorem string_ne_nil (rooted : Bool) (out : lazybuf) : out.string rooted ≠ [] := by
  cases rooted with
  | true => simp [lazybuf.string]
  | false =>
    by_cases hb : stringsJoin (List.replicate out.dotdot ['.', '.'] ++ out.names.reverse) = []
    · simp [lazybuf.string, hb]
    · simp [lazybuf.string, hb]

theorem Clean_of_ne_nil (p : List Char) (hp : p ≠ []) :
    Clean p = (cleanBuf (isRooted p) p).string (isRooted p) := by
  cases p with
  | nil => exact absurd rfl hp
  | cons c cs => rfl

theorem Clean_ne_nil (p : List Char) : Clean p ≠ [] := by
  cases p with
  | nil => simp [Clean]
  | cons c cs => exact string_ne_nil _ _

theorem isRooted_Clean (p : List Char) (hp : p ≠ []) : isRooted (Clean p) = isRooted p := by
  rw [Clean_of_ne_nil p hp]
  exact isRooted_string _ _ (cleanBuf_valid _ _)

theorem cleanBuf_Clean (p : List Char) (hp : p ≠ []) :
    cleanBuf (isRooted p) (Clean p) = cleanBuf (isRooted p) p := by
  rw [Clean_of_ne_nil p hp]
  exact cleanBuf_string _ _ (cleanBuf_valid _ _)

theorem isRooted_append (p t : List Char) (hp : p ≠ []) : isRooted (p ++ t) = isRooted p := by
  cases p with
  | nil => exact absurd rfl hp
  | cons c cs => rfl

theorem cleanBuf_append_sep (rooted : Bool) (p t : List Char) :
    cleanBuf rooted (p ++ '/' :: t) =
      (splitElems t).foldl (cleanStep rooted) (cleanBuf rooted p) := by
  simp [cleanBuf, splitElems_append_sep, List.foldl_append]

/-- Cleaning is idempotent. -/
theorem Clean_Clean (p : List Char) : Clean (Clean p) = Clean p := by
  by_cases hp : p = []
  · subst hp; decide
  · rw [Clean_of_ne_nil (Clean p) (Clean_ne_nil p), isRooted_Clean p hp, cleanBuf_Clean p hp,
      ← Clean_of_ne_nil p hp]

/-- A cleaned front part can be put back uncleaned: what follows a
separator is read from the same buffer. -/
theorem Clean_Clean_append (p t : List Char) (hp : p ≠ []) :
    Clean (Clean p ++ '/' :: t) = Clean (p ++ '/' :: t) := by
  rw [Clean_of_ne_nil (Clean p ++ '/' :: t) (by simp),
    Clean_of_ne_nil (p ++ '/' :: t) (by simp),
    isRooted_append _ _ (Clean_ne_nil p), isRooted_append _ _ hp, isRooted_Clean p hp,
    cleanBuf_append_sep, cleanBuf_append_sep, cleanBuf_Clean p hp]

theorem dropWhile_append_of_nil {α : Type} (f : α → Bool) (es ts : List α)
    (h : es.dropWhile f = []) : (es ++ ts).dropWhile f = ts.dropWhile f := by
  induction es with
  | nil => rfl
  | cons e es ih =>
    by_cases he : f e = true
    · simp only [List.dropWhile_cons, he, if_true] at h
      simp [List.dropWhile_cons, he, ih h]
    · simp [List.dropWhile_cons, he] at h

theorem dropWhile_append_of_cons {α : Type} (f : α → Bool) (es ts : List α) (d : α)
    (ds : List α) (h : es.dropWhile f = d :: ds) : (es ++ ts).dropWhile f = d :: ds ++ ts := by
  induction es with
  | nil => simp at h
  | cons e es ih =>
    by_cases he : f e = true
    · simp only [List.dropWhile_cons, he, if_true] at h
      simp [List.dropWhile_cons, he, ih h]
    · simp only [List.dropWhile_cons, he] at h
      simp only [Bool.false_eq_true, if_false, List.cons.injEq] at h
      obtain ⟨rfl, rfl⟩ := h
      simp [List.dropWhile_cons, he]

theorem dropWhile_head {α : Type} (f : α → Bool) (es : List α) (d : α) (ds : List α)
    (h : es.dropWhile f = d :: ds) : f d = false := by
  induction es with
  | nil => simp at h
  | cons e es ih =>
    by_cases he : f e = true
    · simp only [List.dropWhile_cons, he, if_true] at h
      exact ih h
    · simp only [List.dropWhile_cons, he] at h
      simp only [Bool.false_eq_true, if_false, List.cons.injEq] at h
      obtain ⟨rfl, rfl⟩ := h
      simpa using he

theorem stringsJoin_cons_ne_nil (e : List Char) (l : List (List Char)) (he : e ≠ []) :
    stringsJoin (e :: l) ≠ [] := by
  cases l with
  | nil => simpa [stringsJoin] using he
  | cons f l => simp [stringsJoin]

theorem Join_of_dropWhile_nil (es : List String)
    (h : es.dropWhile (fun e => decide (e = "")) = []) : Join es = "" := by
  simp [Join, h]

theorem Join_of_dropWhile_cons (es : List String) (d : String) (ds : List String)
    (h : es.dropWhile (fun e => decide (e = "")) = d :: ds) :
    Join es = ⟨Clean (stringsJoin ((d :: ds).map String.data))⟩ := by
  simp [Join, h]

theorem String_data_ne_nil (s : String) (h : s ≠ "") : s.data ≠ [] := by
  intro hd
  apply h
  cases s
  simp_all

/-- Joining onto an already joined front part is joining everything at
once: `Join(Join(es...), ts...) = Join(es..., ts...)`. -/
theorem Join_Join (es ts : List String) : Join (Join es :: ts) = Join (es ++ ts) := by
  cases hd : es.dropWhile (fun e => decide (e = "")) with
  | nil =>
    rw [Join_of_dropWhile_nil es hd]
    simp only [Join, List.dropWhile_cons, decide_True, if_true,
      dropWhile_append_of_nil _ es ts hd]
  | cons d ds =>
    have hdne : d ≠ "" := by simpa using dropWhile_head _ es d ds hd
    have hq : stringsJoin ((d :: ds).map String.data) ≠ [] :=
      stringsJoin_cons_ne_nil _ _ (String_data_ne_nil d hdne)
    have hJ : Join es ≠ "" := by
      rw [Join_of_dropWhile_cons es d ds hd]
      intro h
      exact Clean_ne_nil _ (congrArg String.data h)
    have h1 : (Join es :: ts).dropWhile (fun e => decide (e = "")) = Join es :: ts := by
      simp [List.dropWhile_cons, hJ]
    rw [Join_of_dropWhile_cons _ _ _ h1,
      Join_of_dropWhile_cons _ _ _ (dropWhile_append_of_cons _ es ts d ds hd),
      Join_of_dropWhile_cons es d ds hd]
    congr 1
    cases ts with
    | nil => simpa [stringsJoin] using Clean_Clean _
    | cons t ts =>
      have h2 : List.map String.data (d :: List.append ds (t :: ts)) =
          List.map String.data (d :: ds) ++ List.map String.data (t :: ts) := by simp
      rw [h2, stringsJoin_append _ _ (by simp) (by simp)]
      simp only [List.map_cons, stringsJoin_cons_cons]
      exact Clean_Clean_append _ _ hq

/-! ## `Init` -/

theorem len_eq_zero (s : String) : len s = 0 ↔ s = "" := by
  cases s with
  | mk cs =>
    simp only [len, String.utf8ByteSize_mk, String.utf8Len_eq_zero]
    constructor
    · intro h; rw [h]
    · intro h; exact congrArg String.data h

/-- The empty document: `goconf` stays nil and `Init` reports that the
extension does not apply. -/
theorem Init_no_content (unmarshal : Unmarshal) (v : plugin) (wsconf : workspaceconfig.Config)
    (hdoc : unmarshal wsconf.Src = .ok none) :
    Init unmarshal v wsconf = (v, .ret (false, none)) := by
  simp [Init, hdoc]

/-- A `with` section without `go`: `Init` reports that the extension does
not apply. -/
theorem Init_without_go (unmarshal : Unmarshal) (v : plugin) (wsconf : workspaceconfig.Config)
    (hdoc : unmarshal wsconf.Src = .ok (some ⟨some ⟨some ⟨none⟩⟩⟩)) :
    Init unmarshal v wsconf = (v, .ret (false, none)) := by
  simp [Init, hdoc]

/-- C1 (fails on the code): for a valid document that has content but no
`workspace` section, or a `workspace` section without `with`, `Init` does not
return `applicable = false`: reading `goconf.Workspace.With.Go` goes through
a nil pointer and the call panics. -/
theorem Init_panics_without_workspace_or_with (unmarshal : Unmarshal) (v : plugin)
    (wsconf : workspaceconfig.Config) (c : config)
    (hdoc : unmarshal wsconf.Src = .ok (some c))
    (hmiss : c.Workspace = none ∨ c.Workspace = some ⟨none⟩) :
    Init unmarshal v wsconf = (v, .panic) := by
  obtain ⟨ws⟩ := c
  rcases hmiss with h | h
  · have h' : ws = none := h
    subst h'
    simp [Init, hdoc]
  · have h' : ws = some ⟨none⟩ := h
    subst h'
    simp [Init, hdoc]

theorem Init_panics_without_workspace_or_with_witness :
    (sampleUnmarshal (workspaceconfig.Config.mk docNoWith "/w").Src = .ok (some ⟨some ⟨none⟩⟩)) ∧
    ((config.mk (some ⟨none⟩)).Workspace = none ∨
      (config.mk (some ⟨none⟩)).Workspace = some ⟨none⟩) ∧
    Init sampleUnmarshal ⟨none, none⟩ ⟨docNoWith, "/w"⟩ = (⟨none, none⟩, .panic) :=
  ⟨rfl, Or.inr rfl,
    Init_panics_without_workspace_or_with sampleUnmarshal ⟨none, none⟩ ⟨docNoWith, "/w"⟩
      ⟨some ⟨none⟩⟩ rfl (Or.inr rfl)⟩

/-- Whatever error `yaml.Unmarshal` returns is returned by `Init`, with
`applicable = false`. -/
theorem Init_returns_decode_error (unmarshal : Unmarshal) (v : plugin)
    (wsconf : workspaceconfig.Config) (err : Error)
    (hdoc : unmarshal wsconf.Src = .error err) :
    Init unmarshal v wsconf = (v, .ret (false, some err)) := by
  simp [Init, hdoc]

/-- C2 (fails as stated): a valid document that has the section
`workspace.with.go`, with `version` given as a sequence, does not decode
into the string field, and `Init` returns the error of `yaml.Unmarshal`
instead of a nil error. -/
theorem Init_type_error_on_valid_document :
    sampleUnmarshal docGoVersionList = .error versionTypeError ∧
    Init sampleUnmarshal ⟨none, none⟩ ⟨docGoVersionList, "/w"⟩ =
      (⟨none, none⟩, .ret (false, some versionTypeError)) ∧
    (Init sampleUnmarshal ⟨none, none⟩ ⟨docGoVersionList, "/w"⟩).2 ≠ .ret (false, none) ∧
    (Init sampleUnmarshal ⟨none, none⟩ ⟨docGoVersionList, "/w"⟩).2 ≠ .ret (true, none) :=
  ⟨rfl, by decide, by decide, by decide⟩

/-- C2 (amended): when the document decodes without error and has the
section `workspace.with.go`, `Init` returns a nil error and
`applicable = true` exactly when `version` is not empty; and then the plugin
is bound to that section and to the configuration passed to `Init`. -/
theorem Init_with_go_section (unmarshal : Unmarshal) (v : plugin)
    (wsconf : workspaceconfig.Config) (go : goConfig)
    (hdoc : unmarshal wsconf.Src = .ok (some ⟨some ⟨some ⟨some go⟩⟩⟩)) :
    (Init unmarshal v wsconf).2 = .ret (decide (go.Version ≠ ""), none) ∧
    ((Init unmarshal v wsconf).2 = .ret (true, none) →
      (Init unmarshal v wsconf).1 = ⟨some wsconf, some go⟩) := by
  by_cases hv : go.Version = ""
  · have hl : len go.Version = 0 := (len_eq_zero _).2 hv
    simp only [Init, hdoc, hl]
    simp [hv]
  · have hl : len go.Version ≠ 0 := fun h => hv ((len_eq_zero _).1 h)
    simp only [Init, hdoc, hl]
    simp [hv]

theorem Init_with_go_section_witness :
    sampleUnmarshal (workspaceconfig.Config.mk docGo "/w").Src =
        .ok (some ⟨some ⟨some ⟨some ⟨"1.11.2", "false", "auto"⟩⟩⟩⟩) ∧
    (Init sampleUnmarshal ⟨none, none⟩ ⟨docGo, "/w"⟩).2 = .ret (true, none) ∧
    (Init sampleUnmarshal ⟨none, none⟩ ⟨docGo, "/w"⟩).1 =
      ⟨some ⟨docGo, "/w"⟩, some ⟨"1.11.2", "false", "auto"⟩⟩ :=
  ⟨rfl,
    (Init_with_go_section sampleUnmarshal ⟨none, none⟩ ⟨docGo, "/w"⟩ ⟨"1.11.2", "false", "auto"⟩
      rfl).1,
    (Init_with_go_section sampleUnmarshal ⟨none, none⟩ ⟨docGo, "/w"⟩ ⟨"1.11.2", "false", "auto"⟩
      rfl).2 (by decide)⟩

/-- C10: whenever `Init` does not return `applicable = true` (it returns
`false`, with or without an error, or does not return at all), the bound
workspace and toolchain configurations are what they were before the call. -/
theorem Init_keeps_state_unless_applicable (unmarshal : Unmarshal) (v : plugin)
    (wsconf : workspaceconfig.Config)
    (h : (Init unmarshal v wsconf).2 ≠ .ret (true, none)) :
    (Init unmarshal v wsconf).1 = v := by
  cases hdoc : unmarshal wsconf.Src with
  | error e => simp [Init, hdoc]
  | ok oc =>
    cases oc with
    | none => simp [Init, hdoc]
    | some c =>
      obtain ⟨ws⟩ := c
      cases ws with
      | none => simp [Init, hdoc]
      | some ws =>
        obtain ⟨wi⟩ := ws
        cases wi with
        | none => simp [Init, hdoc]
        | some wi =>
          obtain ⟨go⟩ := wi
          cases go with
          | none => simp [Init, hdoc]
          | some go =>
            by_cases hl : len go.Version = 0
            · simp [Init, hdoc, hl]
            · simp [Init, hdoc, hl] at h

theorem Init_keeps_state_unless_applicable_witness :
    (Init sampleUnmarshal ⟨some ⟨docGo, "/w"⟩, some ⟨"1.11.2", "false", "auto"⟩⟩
        ⟨docMalformed, "/other"⟩).2 ≠ .ret (true, none) ∧
    (Init sampleUnmarshal ⟨some ⟨docGo, "/w"⟩, some ⟨"1.11.2", "false", "auto"⟩⟩
        ⟨docMalformed, "/other"⟩).1 =
      ⟨some ⟨docGo, "/w"⟩, some ⟨"1.11.2", "false", "auto"⟩⟩ :=
  ⟨by decide,
    Init_keeps_state_unless_applicable sampleUnmarshal
      ⟨some ⟨docGo, "/w"⟩, some ⟨"1.11.2", "false", "auto"⟩⟩ ⟨docMalformed, "/other"⟩
      (by decide)⟩

/-! ## `SetupTasks` -/

theorem bin_eq_flat (wsconf : workspaceconfig.Config) (goconf : goConfig) :
    SetupTasks.bin wsconf goconf =
      Join [wsconf.WorkingDir, ".go", goconf.Version, "go", "bin", "go"] :=
  Join_Join [wsconf.WorkingDir, ".go", goconf.Version] ["go", "bin", "go"]

theorem SetupTasks_bound {σ : Type} (sys : Sys σ) (rt : Runtime)
    (wsconf : workspaceconfig.Config) (goconf : goConfig) (w : σ) :
    SetupTasks sys rt ⟨some wsconf, some goconf⟩ w =
      if sys.Exists (SetupTasks.bin wsconf goconf) w then .ret []
      else .ret [
        ⟨"initializing",
          initializing sys (SetupTasks.path wsconf goconf) (SetupTasks.tmp wsconf)⟩,
        ⟨"downloading",
          downloading sys (SetupTasks.file rt wsconf goconf) (SetupTasks.url rt goconf)⟩,
        ⟨"unpacking",
          unpacking sys (SetupTasks.file rt wsconf goconf) (SetupTasks.path wsconf goconf)⟩] :=
  rfl

theorem SetupTasks_eq_nil_iff {σ : Type} (sys : Sys σ) (rt : Runtime)
    (wsconf : workspaceconfig.Config) (goconf : goConfig) (w : σ) :
    SetupTasks sys rt ⟨some wsconf, some goconf⟩ w = .ret [] ↔
      sys.Exists (SetupTasks.bin wsconf goconf) w = true := by
  rw [SetupTasks_bound]
  by_cases h : sys.Exists (SetupTasks.bin wsconf goconf) w = true
  · simp [h]
  · simp [h]

/-- C3: for a bound plugin, `SetupTasks` returns the empty pipeline exactly
when something exists at `join(wd, ".go", v, "go", "bin", "go")`, and
otherwise the three procedures "initializing", "downloading", "unpacking" in
this order; the whole result is a function of `wd`, `v` and that existence
test alone. -/
theorem SetupTasks_pipeline {σ : Type} (sys : Sys σ) (rt : Runtime) :
    ∃ f : String → String → Bool → Outcome (ext.SetupTasks σ),
      ∀ (wsconf : workspaceconfig.Config) (goconf : goConfig) (w : σ),
        SetupTasks sys rt ⟨some wsconf, some goconf⟩ w =
          f wsconf.WorkingDir goconf.Version
            (sys.Exists
              (Join [wsconf.WorkingDir, ".go", goconf.Version, "go", "bin", "go"]) w) ∧
        (SetupTasks sys rt ⟨some wsconf, some goconf⟩ w = .ret [] ↔
          sys.Exists
            (Join [wsconf.WorkingDir, ".go", goconf.Version, "go", "bin", "go"]) w = true) ∧
        ∃ tasks : ext.SetupTasks σ,
          SetupTasks sys rt ⟨some wsconf, some goconf⟩ w = .ret tasks ∧
          tasks.map (fun p => p.name) =
            if sys.Exists
                (Join [wsconf.WorkingDir, ".go", goconf.Version, "go", "bin", "go"]) w
            then [] else ["initializing", "downloading", "unpacking"] := by
  refine ⟨fun wd ver b =>
    if b then .ret []
    else .ret [
      ⟨"initializing", initializing sys (Join [wd, ".go", ver]) (Join [wd, ".go", "release"])⟩,
      ⟨"downloading",
        downloading sys (SetupTasks.file rt ⟨"", wd⟩ ⟨ver, "", ""⟩)
          (SetupTasks.url rt ⟨ver, "", ""⟩)⟩,
      ⟨"unpacking",
        unpacking sys (SetupTasks.file rt ⟨"", wd⟩ ⟨ver, "", ""⟩) (Join [wd, ".go", ver])⟩],
    fun wsconf goconf w => ?_⟩
  rw [← bin_eq_flat]
  refine ⟨?_, SetupTasks_eq_nil_iff sys rt wsconf goconf w, ?_⟩
  · rw [SetupTasks_bound]
    rfl
  · rw [SetupTasks_bound]
    by_cases h : sys.Exists (SetupTasks.bin wsconf goconf) w = true
    · exact ⟨[], by simp [h], by simp [h]⟩
    · exact ⟨_, by simp only [h, if_false]; rfl, by simp [h]⟩

/-- C8: for a bound plugin, `Paths` returns exactly the one directory
`join(wd, ".go", v, "go", "bin")`, and the path whose existence `SetupTasks`
tests is that directory joined with `go`. -/
theorem Paths_is_bin_directory (wsconf : workspaceconfig.Config) (goconf : goConfig) :
    Paths ⟨some wsconf, some goconf⟩ =
        .ret [Join [wsconf.WorkingDir, ".go", goconf.Version, "go", "bin"]] ∧
    SetupTasks.bin wsconf goconf =
        Join [Join [wsconf.WorkingDir, ".go", goconf.Version, "go", "bin"], "go"] ∧
    ∀ (σ : Type) (sys : Sys σ) (rt : Runtime) (w : σ),
      (SetupTasks sys rt ⟨some wsconf, some goconf⟩ w = .ret [] ↔
        sys.Exists
          (Join [Join [wsconf.WorkingDir, ".go", goconf.Version, "go", "bin"], "go"]) w
          = true) := by
  have hb : SetupTasks.bin wsconf goconf =
      Join [Join [wsconf.WorkingDir, ".go", goconf.Version, "go", "bin"], "go"] := by
    rw [bin_eq_flat]
    exact (Join_Join [wsconf.WorkingDir, ".go", goconf.Version, "go", "bin"] ["go"]).symm
  refine ⟨rfl, hb, fun σ sys rt w => ?_⟩
  rw [← hb]
  exact SetupTasks_eq_nil_iff sys rt wsconf goconf w

/-- C6 (fails on the code): the procedure "initializing" returns nil in
every world, also when creating a directory fails, because the results of
both `fs.Mkdir` calls are dropped; so whenever the binary is absent the run
goes on into "downloading" and never stops at "initializing". -/
theorem initializing_never_aborts {σ : Type} (sys : Sys σ) (rt : Runtime)
    (bar : ext.ProgressBar) (wsconf : workspaceconfig.Config) (goconf : goConfig) (w : σ)
    (habs : sys.Exists (SetupTasks.bin wsconf goconf) w = false) :
    initializing sys (SetupTasks.path wsconf goconf) (SetupTasks.tmp wsconf) bar w =
      ((sys.Mkdir (SetupTasks.tmp wsconf)
          (sys.Mkdir (SetupTasks.path wsconf goconf) w).1).1, none) ∧
    ∃ rest : List String,
      (setupAndRun sys rt bar ⟨some wsconf, some goconf⟩ w).2.1 =
        "initializing" :: "downloading" :: rest := by
  refine ⟨rfl, ?_⟩
  simp only [setupAndRun, SetupTasks_bound, habs, Bool.false_eq_true, if_false, runPipeline,
    initializing]
  rcases hd : downloading sys (SetupTasks.file rt wsconf goconf) (SetupTasks.url rt goconf) bar
      (sys.Mkdir (SetupTasks.tmp wsconf) (sys.Mkdir (SetupTasks.path wsconf goconf) w).1).1
    with ⟨w2, _ | err⟩
  · exact ⟨_, rfl⟩
  · exact ⟨[], rfl⟩

/-- On a tree that cannot be modified the creation of the install root
fails, and still the run passes "initializing". -/
theorem initializing_never_aborts_witness :
    simSys.Exists (SetupTasks.bin sampleWs sampleGo) (emptyWorld false ⟨200, "tgz"⟩) = false ∧
    (simSys.Mkdir (SetupTasks.path sampleWs sampleGo) (emptyWorld false ⟨200, "tgz"⟩)).2 =
      some "mkdir: permission denied" ∧
    (initializing simSys (SetupTasks.path sampleWs sampleGo) (SetupTasks.tmp sampleWs)
      sampleBar (emptyWorld false ⟨200, "tgz"⟩)).2 = none :=
  ⟨by decide, by decide,
    congrArg Prod.snd
      (initializing_never_aborts simSys sampleRuntime sampleBar sampleWs sampleGo
        (emptyWorld false ⟨200, "tgz"⟩) (by decide)).1⟩

/-- On a tree that cannot be modified both directory creations fail, yet
the run only stops in "downloading", at the creation of the file. -/
theorem readonly_run_stops_at_downloading :
    (simSys.Mkdir (SetupTasks.path sampleWs sampleGo) (emptyWorld false ⟨200, "tgz"⟩)).2 =
        some "mkdir: permission denied" ∧
    (setupAndRun simSys sampleRuntime sampleBar ⟨some sampleWs, some sampleGo⟩
        (emptyWorld false ⟨200, "tgz"⟩)).2 =
      (["initializing", "downloading"], some "open: permission denied") := by
  decide

/-- C5 (fails on the code): once the file is created, the request is
answered and the body is copied, the procedure "downloading" returns nil
whatever the status code of the response is. -/
theorem downloading_ignores_status {σ : Type} (sys : Sys σ) (file url : String)
    (bar : ext.ProgressBar) (w : σ) (out : String) (rsp : Response) (n : Nat)
    (hcreate : (sys.Create file w).2 = .ok out)
    (hget : (sys.Get url (sys.Create file w).1).2 = .ok rsp)
    (hcopy : (sys.Copy out rsp (sys.Get url (sys.Create file w).1).1).2 = .ok n) :
    (downloading sys file url bar w).2 = none := by
  unfold downloading
  rcases h1 : sys.Create file w with ⟨w1, r1⟩
  rw [h1] at hcreate hget hcopy
  simp only at hcreate hget hcopy
  subst hcreate
  rcases h2 : sys.Get url w1 with ⟨w2, r2⟩
  rw [h2] at hget hcopy
  simp only at hget hcopy
  subst hget
  rcases h3 : sys.Copy out rsp w2 with ⟨w3, r3⟩
  rw [h3] at hcopy
  simp only at hcopy
  subst hcopy
  simp [h2, h3]

theorem downloading_ignores_status_witness :
    (simSys.Create "/w/.go/release/a.tar.gz" (emptyWorld true ⟨500, "Internal Server Error"⟩)).2
        = .ok "/w/.go/release/a.tar.gz" ∧
    (downloading simSys "/w/.go/release/a.tar.gz" "https://dl.google.com/go/a.tar.gz" sampleBar
        (emptyWorld true ⟨500, "Internal Server Error"⟩)).2 = none :=
  ⟨rfl,
    downloading_ignores_status simSys "/w/.go/release/a.tar.gz"
      "https://dl.google.com/go/a.tar.gz" sampleBar
      (emptyWorld true ⟨500, "Internal Server Error"⟩) "/w/.go/release/a.tar.gz"
      ⟨500, "Internal Server Error"⟩ 21 rfl rfl rfl⟩

/-- A transport error of `http.Get` is returned by "downloading". -/
theorem downloading_transport_error {σ : Type} (sys : Sys σ) (file url : String)
    (bar : ext.ProgressBar) (w : σ) (out : String) (err : Error)
    (hcreate : (sys.Create file w).2 = .ok out)
    (hget : (sys.Get url (sys.Create file w).1).2 = .error err) :
    (downloading sys file url bar w).2 = some err := by
  unfold downloading
  rcases h1 : sys.Create file w with ⟨w1, r1⟩
  rw [h1] at hcreate hget
  simp only at hcreate hget
  subst hcreate
  rcases h2 : sys.Get url w1 with ⟨w2, r2⟩
  rw [h2] at hget
  simp only at hget
  subst hget
  simp [h2]

/-- With a server that answers 500, "downloading" succeeds and the run goes
on into "unpacking", which is the step that fails. -/
theorem http_500_run_reaches_unpacking :
    (setupAndRun simSys sampleRuntime sampleBar ⟨some sampleWs, some sampleGo⟩
        (emptyWorld true ⟨500, "Internal Server Error"⟩)).2 =
      (["initializing", "downloading", "unpacking"], some "gzip: invalid header") := by
  decide

/-- A file that is no archive makes "unpacking" fail before anything is
written: the binary stays absent and the next `SetupTasks` returns the three
procedures again. -/
theorem unpacking_error_before_binary :
    (unpacking simSys (SetupTasks.file sampleRuntime sampleWs sampleGo)
        (SetupTasks.path sampleWs sampleGo) sampleBar damagedEarly).2 =
      some "gzip: invalid header" ∧
    taskNames (SetupTasks simSys sampleRuntime ⟨some sampleWs, some sampleGo⟩
        (unpacking simSys (SetupTasks.file sampleRuntime sampleWs sampleGo)
          (SetupTasks.path sampleWs sampleGo) sampleBar damagedEarly).1) =
      ["initializing", "downloading", "unpacking"] := by
  decide

/-- Scenario of the spec: version 1.11.2 and an empty install directory give
the three procedures; after they ran the binary exists and `SetupTasks`
returns the empty pipeline. -/
theorem install_then_nothing_to_do :
    (setupAndRun simSys sampleRuntime sampleBar ⟨some sampleWs, some sampleGo⟩
        (emptyWorld true ⟨200, "tgz;go/bin/go;go/VERSION"⟩)).2 =
      (["initializing", "downloading", "unpacking"], none) ∧
    simSys.Exists "/w/.go/1.11.2/go/bin/go"
      (setupAndRun simSys sampleRuntime sampleBar ⟨some sampleWs, some sampleGo⟩
        (emptyWorld true ⟨200, "tgz;go/bin/go;go/VERSION"⟩)).1 = true ∧
    taskNames (SetupTasks simSys sampleRuntime ⟨some sampleWs, some sampleGo⟩
      (setupAndRun simSys sampleRuntime sampleBar ⟨some sampleWs, some sampleGo⟩
        (emptyWorld true ⟨200, "tgz;go/bin/go;go/VERSION"⟩)).1) = [] := by
  decide

/-! ## Install root and staging directory -/

theorem cleanStep_plain_inj (rooted : Bool) (out : lazybuf) (a b : List Char)
    (hb : plainElem b) (h : cleanStep rooted out a = cleanStep rooted out b) : a = b := by
  rw [cleanStep_plain rooted out b hb] at h
  obtain ⟨d, names⟩ := out
  unfold cleanStep at h
  have hlen : ∀ l : List (List Char), l ≠ b :: l := fun l hl => by
    have := congrArg List.length hl
    simp at this
  have hlen2 : ∀ (x : List Char) (l : List (List Char)), l ≠ b :: x :: l := fun x l hl => by
    have := congrArg List.length hl
    simp only [List.length_cons] at this
    omega
  split at h
  · simp only [lazybuf.mk.injEq, true_and] at h
    exact absurd h (hlen names)
  · split at h
    · simp only [lazybuf.mk.injEq, true_and] at h
      exact absurd h (hlen names)
    · split at h
      · split at h
        · rename_i x rest hn
          simp only at hn
          subst hn
          simp only [lazybuf.mk.injEq, true_and] at h
          exact absurd h (hlen2 x rest)
        · rename_i hn
          simp only at hn
          subst hn
          split at h <;> simp at h
      · simp only [lazybuf.mk.injEq, List.cons.injEq, and_true, true_and] at h
        exact h

theorem Clean_append_sep_inj (p a b : List Char) (hp : p ≠ []) (ha : '/' ∉ a)
    (hb : plainElem b) (h : Clean (p ++ '/' :: a) = Clean (p ++ '/' :: b)) : a = b := by
  rw [Clean_of_ne_nil (p ++ '/' :: a) (by simp), Clean_of_ne_nil (p ++ '/' :: b) (by simp),
    isRooted_append _ _ hp, isRooted_append _ _ hp, cleanBuf_append_sep, cleanBuf_append_sep,
    splitElems_of_noSep a ha, splitElems_of_noSep b hb.2.2.2] at h
  simp only [List.foldl_cons, List.foldl_nil] at h
  have hv := cleanBuf_valid (isRooted p) p
  have h2 := congrArg (cleanBuf (isRooted p)) h
  rw [cleanBuf_string _ _ (cleanStep_valid _ _ a ha hv),
    cleanBuf_string _ _ (cleanStep_valid _ _ b hb.2.2.2 hv)] at h2
  exact cleanStep_plain_inj _ _ a b hb h2

theorem Join_under_dot_go (wd : String) :
    ∃ p : List Char, p ≠ [] ∧ ∀ x : String, Join [wd, ".go", x] = ⟨Clean (p ++ '/' :: x.data)⟩ := by
  by_cases hw : wd = ""
  · subst hw
    exact ⟨".go".data, by decide, fun x => by simp [Join, stringsJoin]⟩
  · exact ⟨wd.data ++ '/' :: ".go".data, by simp, fun x => by simp [Join, hw, stringsJoin]⟩

/-- C9 (fails as stated): the version `release` is accepted by `Init`, and
for it the install root is the staging directory. -/
theorem install_root_is_staging_dir_for_release :
    (Init sampleUnmarshal ⟨none, none⟩ ⟨docGoRelease, "/w"⟩).1 =
        ⟨some ⟨docGoRelease, "/w"⟩, some ⟨"release", "", ""⟩⟩ ∧
    (Init sampleUnmarshal ⟨none, none⟩ ⟨docGoRelease, "/w"⟩).2 = .ret (true, none) ∧
    ¬ (SetupTasks.path ⟨docGoRelease, "/w"⟩ ⟨"release", "", ""⟩ ≠
        SetupTasks.tmp ⟨docGoRelease, "/w"⟩) := by
  decide

/-- C9 (amended): for every working directory and every version without a
path separator other than `release`, the install root `join(wd, ".go", v)`
differs from the staging directory `join(wd, ".go", "release")`. -/
theorem install_root_ne_staging_dir (wsconf : workspaceconfig.Config) (goconf : goConfig)
    (hsep : '/' ∉ goconf.Version.data) (hrel : goconf.Version ≠ "release") :
    SetupTasks.path wsconf goconf ≠ SetupTasks.tmp wsconf := by
  obtain ⟨p, hp, hJ⟩ := Join_under_dot_go wsconf.WorkingDir
  intro h
  simp only [SetupTasks.path, SetupTasks.tmp, hJ] at h
  have hplain : plainElem "release".data := by
    refine ⟨by decide, by decide, by decide, by decide⟩
  have hd : goconf.Version.data = "release".data :=
    Clean_append_sep_inj p _ _ hp hsep hplain (congrArg String.data h)
  apply hrel
  cases hv : goconf.Version with
  | mk cs =>
    rw [hv] at hd
    exact congrArg String.mk hd

theorem install_root_ne_staging_dir_witness :
    '/' ∉ (goConfig.mk "1.11.2" "false" "auto").Version.data ∧
    (goConfig.mk "1.11.2" "false" "auto").Version ≠ "release" ∧
    SetupTasks.path ⟨docGo, "/w"⟩ ⟨"1.11.2", "false", "auto"⟩ ≠ SetupTasks.tmp ⟨docGo, "/w"⟩ :=
  ⟨by decide, by decide,
    install_root_ne_staging_dir ⟨docGo, "/w"⟩ ⟨"1.11.2", "false", "auto"⟩ (by decide)
      (by decide)⟩

/-! ## `Environment` -/

/-- C4: for a bound toolchain configuration the mapping of `Environment` has
the entry `GOPATH` (with `go_path` itself) exactly when `go_path` is neither
empty nor `false`, the entry `GO111MODULE` (with `go_111_module` itself)
exactly when `go_111_module` is not empty, and no other entry. -/
theorem Environment_entries (wsconf : Option workspaceconfig.Config) (goconf : goConfig) :
    Environment ⟨wsconf, some goconf⟩ =
      .ret ((if goconf.GoPath ≠ "" ∧ goconf.GoPath ≠ "false"
              then [("GOPATH", goconf.GoPath)] else []) ++
            (if goconf.Go111Module ≠ "" then [("GO111MODULE", goconf.Go111Module)] else [])) := by
  have hpos : ∀ s : String, len s > 0 ↔ s ≠ "" := fun s => by
    rw [gt_iff_lt, Nat.pos_iff_ne_zero]
    exact not_congr (len_eq_zero s)
  simp only [Environment, hpos]
  by_cases h1 : goconf.GoPath ≠ "" ∧ goconf.GoPath ≠ "false" <;>
    by_cases h2 : goconf.Go111Module ≠ "" <;>
    simp [h1, h2, envcomposer.Composer.Set, envcomposer.Composer.AsMap, envcomposer.New,
      envcomposer.setVar]

end Dem
